import Mathlib

/-!
Verification of the bevy_ui_forms core: a shallow embedding of the
text-input editing systems (crates/core/src/lib.rs), the form systems
(crates/core/src/form.rs) and the clipboard paste system
(crates/core/src/clipboard.rs), together with theorems about the
focus, validation and editing behaviour.

Strings are modelled as lists of characters.  Rust byte offsets are
modelled through the UTF-8 width of each character; Rust operations
that panic on a non-boundary byte index are modelled in the Except
monad.  Deferred ECS commands are modelled as explicit command lists
applied at the sync points the engine inserts.
-/

namespace BevyUiForms

/-- UTF-8 encoded width in bytes of one character (Rust char len_utf8). -/
def charUtf8Len (c : Char) : Nat :=
  if c.val < 0x80 then 1
  else if c.val < 0x800 then 2
  else if c.val < 0x10000 then 3
  else 4

/-- Byte length of a string (Rust String len). -/
def byteLen (s : List Char) : Nat := (s.map charUtf8Len).sum

/-- Convert a Rust byte index into a character index.  Returns none when
the byte index is past the end of the string or does not lie on a
character boundary, the situations in which Rust String insert and
insert_str panic. -/
def byteToCharIdx : List Char → Nat → Option Nat
  | _, 0 => some 0
  | [], _ + 1 => none
  | c :: rest, n + 1 =>
    if charUtf8Len c ≤ n + 1 then
      (byteToCharIdx rest (n + 1 - charUtf8Len c)).map (· + 1)
    else none

/-- The helper remove_char_at of lib.rs: keep every character whose
character index differs from the given one. -/
def remove_char_at (input : List Char) (index : Nat) : List Char :=
  input.enum.filterMap (fun p => if p.1 = index then none else some p.2)

/-- The TextInputSettings component. -/
structure TextInputSettings where
  retain_on_submit : Bool
  mask_character : Option Char
deriving DecidableEq

/-- Value and cursor of one text input: the TextInputValue and
TextInputCursorPos components. -/
structure TextState where
  value : List Char
  cursor : Nat
deriving DecidableEq

/-- TextInputBundle with_value of lib.rs: stores the value and sets the
cursor to the BYTE length of the provided string. -/
def with_value (v : List Char) : TextState :=
  { value := v, cursor := byteLen v }

/-- Key events consumed by the keyboard system of lib.rs. -/
inductive Key where
  | arrowLeft
  | arrowRight
  | backspace
  | delete
  | enter
  | space
  | character (s : List Char)
  | other
deriving DecidableEq

/-- Change-detection flags raised by one key event: whether the value
component and the cursor component were written. -/
structure EditFlags where
  valueChanged : Bool
  cursorChanged : Bool
deriving DecidableEq

/-- Result of processing one key event on a focused input. -/
structure KeyOutcome where
  state : TextState
  flags : EditFlags
  submitted : Option (List Char)
deriving DecidableEq

/-- One iteration of the event loop in the keyboard system of lib.rs
for a focused input.  ArrowRight and Delete compare the cursor against
the BYTE length of the value, and Space inserts at the cursor treated
as a BYTE index (Rust String insert, which panics off a character
boundary, modelled as Except.error); Backspace, Delete and character
input operate on character indices. -/
def keyboard (settings : TextInputSettings) (k : Key) (s : TextState) :
    Except Unit KeyOutcome :=
  let pos := s.cursor
  match k with
  | .arrowLeft =>
    if 0 < pos then
      .ok ⟨⟨s.value, pos - 1⟩, ⟨false, true⟩, none⟩
    else .ok ⟨s, ⟨false, false⟩, none⟩
  | .arrowRight =>
    if pos < byteLen s.value then
      .ok ⟨⟨s.value, pos + 1⟩, ⟨false, true⟩, none⟩
    else .ok ⟨s, ⟨false, false⟩, none⟩
  | .backspace =>
    if 0 < pos then
      .ok ⟨⟨remove_char_at s.value (pos - 1), pos - 1⟩, ⟨true, true⟩, none⟩
    else .ok ⟨s, ⟨false, false⟩, none⟩
  | .delete =>
    if pos < byteLen s.value then
      .ok ⟨⟨remove_char_at s.value pos, pos⟩, ⟨true, true⟩, none⟩
    else .ok ⟨s, ⟨false, false⟩, none⟩
  | .enter =>
    if settings.retain_on_submit then
      .ok ⟨s, ⟨false, false⟩, some s.value⟩
    else
      .ok ⟨⟨[], 0⟩, ⟨true, true⟩, some s.value⟩
  | .space =>
    match byteToCharIdx s.value pos with
    | some ci =>
      .ok ⟨⟨s.value.take ci ++ [' '] ++ s.value.drop ci, pos + 1⟩, ⟨true, true⟩, none⟩
    | none => .error ()
  | .character cs =>
    .ok ⟨⟨s.value.take pos ++ cs ++ s.value.drop pos, pos + 1⟩, ⟨true, true⟩, none⟩
  | .other => .ok ⟨s, ⟨false, false⟩, none⟩

/-- The update_value system of lib.rs for one input whose value or
cursor changed: an external value write with an untouched cursor resets
the cursor to the end of the text, and any touched cursor is clamped to
the character count of the value. -/
def update_value (flags : EditFlags) (s : TextState) : TextState :=
  let count := s.value.length
  let reset := flags.valueChanged && !flags.cursorChanged
  let cursor1 := if reset then count else s.cursor
  let cursorChanged1 := if reset then true else flags.cursorChanged
  let cursor2 := if cursorChanged1 then min cursor1 count else cursor1
  ⟨s.value, cursor2⟩

/-- One frame of the text-edit pipeline for a single key event: the
keyboard system followed by update_value, which the plugin schedules
strictly after it. -/
def framePass (settings : TextInputSettings) (k : Key) (s : TextState) :
    Except Unit (TextState × Option (List Char)) :=
  match keyboard settings k s with
  | .error e => .error e
  | .ok o => .ok (update_value o.flags o.state, o.submitted)

/-- Editing operations covered by the cursor invariant: key events and
external value writes picked up by update_value. -/
inductive EditOp where
  | key (k : Key)
  | writeValue (v : List Char)
deriving DecidableEq

/-- Apply one editing operation, including the update_value phase of
the same frame. -/
def applyOp (settings : TextInputSettings) (op : EditOp) (s : TextState) :
    Except Unit TextState :=
  match op with
  | .key k =>
    match framePass settings k s with
    | .error e => .error e
    | .ok r => .ok r.1
  | .writeValue v => .ok (update_value ⟨true, false⟩ ⟨v, s.cursor⟩)

/-- Apply a sequence of editing operations. -/
def applyOps (settings : TextInputSettings) : List EditOp → TextState →
    Except Unit TextState
  | [], s => .ok s
  | op :: ops, s =>
    match applyOp settings op s with
    | .error e => .error e
    | .ok s1 => applyOps settings ops s1

/-- The cursor invariant of the specification: the cursor offset lies
between 0 and the character count of the value. -/
def cursorInv (s : TextState) : Prop :=
  0 ≤ s.cursor ∧ s.cursor ≤ s.value.length

instance (s : TextState) : Decidable (cursorInv s) := by
  unfold cursorInv; infer_instance

/-- The clipboard paste branch of the clipboard system of lib.rs:
newline and carriage-return characters are stripped, the remaining text
is inserted at the cursor treated as a BYTE index (Rust String
insert_str, which panics off a character boundary, modelled as
Except.error), and the cursor advances by the character count of the
stripped text. -/
def clipboard (pasted : List Char) (s : TextState) : Except Unit TextState :=
  let value := pasted.filter (fun c => c != '\n' && c != '\r')
  match byteToCharIdx s.value s.cursor with
  | some ci =>
    .ok ⟨s.value.take ci ++ value ++ s.value.drop ci, s.cursor + value.length⟩
  | none => .error ()

/-! ### Validation and the form aggregate (form.rs) -/

/-- The FormValidationError enum of form.rs.  Entities are opaque
natural-number handles. -/
inductive FormValidationError where
  | required (entity : Nat)
  | invalid (entity : Nat)
  | custom (entity : Nat) (msg : List Char)
deriving DecidableEq

/-- The entity handle carried by a validation error, extracted the way
the retain closure of form_element_valid matches every variant. -/
def errorEntity : FormValidationError → Nat
  | .required e => e
  | .invalid e => e
  | .custom e _ => e

/-- One form element as seen by the validation systems: its value, the
FormElementOptional marker, the FormElementValid marker and the
FormElementInvalid component. -/
structure FieldVal where
  id : Nat
  value : List Char
  optional : Bool
  validM : Bool
  invalidM : Option FormValidationError
deriving DecidableEq

/-- One form entity: the FormInvalid component (carrying the error
list) and the FormValid marker. -/
structure FormAgg where
  id : Nat
  formInvalid : Option (List FormValidationError)
  formValid : Bool
deriving DecidableEq

/-- The validate system of lib.rs for one field whose value changed.
Returns the updated field together with the Added edge flags for the
FormElementInvalid and FormElementValid components: inserting a
component that is already present does not raise Added. -/
def validate (f : FieldVal) : FieldVal × Bool × Bool :=
  if f.value.isEmpty && !f.optional then
    ({ f with invalidM := some (.required f.id), validM := false },
     f.invalidM.isNone, false)
  else
    ({ f with invalidM := none, validM := true }, false, !f.validM)

/-- The form_element_invalid system of form.rs for one newly invalid
element whose parent is the given form: push the cause onto an existing
error list, or create the list and drop the FormValid marker. -/
def form_element_invalid (form : FormAgg) (cause : FormValidationError) :
    FormAgg :=
  match form.formInvalid with
  | some l => { form with formInvalid := some (l ++ [cause]) }
  | none => { form with formInvalid := some [cause], formValid := false }

/-- The form_element_valid system of form.rs for one newly valid
element whose parent is the given form: retain only errors whose handle
differs from the element, and when the list empties replace FormInvalid
with FormValid. -/
def form_element_valid (form : FormAgg) (elem : Nat) : FormAgg :=
  match form.formInvalid with
  | some l =>
    let kept := l.filter (fun err => errorEntity err != elem)
    if kept.isEmpty then
      { form with formInvalid := none, formValid := true }
    else
      { form with formInvalid := some kept }
  | none => form

/-- A value change on one field followed by the validation pipeline:
validate raises the Added edges and the form systems react to them. -/
def valueChangeStep (f : FieldVal) (newValue : List Char) (form : FormAgg) :
    FieldVal × FormAgg :=
  let f1 := { f with value := newValue }
  let r := validate f1
  let form1 := if r.2.1 then form_element_invalid form (.required f1.id) else form
  let form2 := if r.2.2 then form_element_valid form1 f1.id else form1
  (r.1, form2)

/-- One step of the form transition system: field number op.1 receives
the value op.2 and the validation pipeline runs. -/
def formStep (p : List FieldVal × FormAgg) (op : Nat × List Char) :
    List FieldVal × FormAgg :=
  match p.1.get? op.1 with
  | some f =>
    let r := valueChangeStep f op.2 p.2
    (p.1.set op.1 r.1, r.2)
  | none => p

/-- Run a sequence of child value changes against a form. -/
def formRun (p : List FieldVal × FormAgg) (ops : List (Nat × List Char)) :
    List FieldVal × FormAgg :=
  ops.foldl formStep p

/-- The aggregate-validity invariant: a present FormInvalid component
carries a non-empty error list, and FormInvalid and FormValid are never
present together. -/
def formInv (form : FormAgg) : Prop :=
  (∀ l, form.formInvalid = some l → l ≠ []) ∧
  ¬(form.formInvalid ≠ none ∧ form.formValid = true)

/-! ### Focus and tab navigation (lib.rs and form.rs) -/

/-- One field as seen by the focus systems: the FormElementFocus
marker, the TextInputActive flag and the FormElementOrder component. -/
structure FormField where
  id : Nat
  focused : Bool
  active : Bool
  order : Option Nat
deriving DecidableEq

/-- The fields currently carrying the FormElementFocus marker. -/
def focusedFields (w : List FormField) : List FormField :=
  w.filter (·.focused)

/-- Number of fields carrying the FormElementFocus marker. -/
def countFocused (w : List FormField) : Nat :=
  (focusedFields w).length

/-- The current order used by tab navigation: the declared order of the
single focused field, defaulting to 0 when the focused field carries no
order or when there is not exactly one focused field. -/
def focusedOrder (w : List FormField) : Nat :=
  match focusedFields w with
  | [f] => f.order.getD 0
  | _ => 0

/-- Children of a form paired with their optional declared order; only
those carrying an order participate in tab navigation. -/
def orderedChildren (children : List (Nat × Option Nat)) : List (Nat × Nat) :=
  children.filterMap (fun p => p.2.map (fun o => (p.1, o)))

/-- Rust Iterator min_by_key on (entity, order) pairs: the first
element with minimal key. -/
def minByKeyFirst : List (Nat × Nat) → Option (Nat × Nat)
  | [] => none
  | x :: xs =>
    match minByKeyFirst xs with
    | none => some x
    | some y => if y.2 < x.2 then some y else some x

/-- The tab-navigation selection of form_keyboard in form.rs: the child
with the smallest declared order strictly above the current one, or,
failing that, the child with the globally smallest declared order. -/
def tabTarget (children : List (Nat × Option Nat)) (cur : Nat) : Option Nat :=
  let ordered := orderedChildren children
  match minByKeyFirst (ordered.filter (fun q => cur < q.2)) with
  | some p => some p.1
  | none => (minByKeyFirst ordered).map (·.1)

/-- Keyboard snapshot read by form_keyboard. -/
structure FormKeys where
  enterJustReleased : Bool
  escapeJustPressed : Bool
  escapeJustReleased : Bool
  tabJustPressed : Bool
deriving DecidableEq

/-- One form entity as read by form_keyboard: its children (with their
orders) and the FormInvalid marker. -/
structure FormEnt where
  id : Nat
  children : List (Nat × Option Nat)
  formInvalid : Option (List FormValidationError)
deriving DecidableEq

/-- The GenericFormEvent payloads of form.rs: Submit carries the form
entity, Cancel carries nothing. -/
inductive FormEvent where
  | submit (form : Nat)
  | cancel
deriving DecidableEq

/-- The form_keyboard system of form.rs: requires exactly one form to
exist; on Enter just released it emits Submit of the form when no
FormInvalid marker is present; otherwise on Escape just PRESSED it
emits the parameterless Cancel; otherwise on Tab just pressed it
selects the tab target and queues a FormElementFocus insertion for it.
Returns the emitted events and the queued focus insertions. -/
def form_keyboard (forms : List FormEnt) (keys : FormKeys)
    (fields : List FormField) : List FormEvent × List Nat :=
  match forms with
  | [form] =>
    if keys.enterJustReleased then
      (if form.formInvalid = none then [.submit form.id] else [], [])
    else if keys.escapeJustPressed then
      ([.cancel], [])
    else if keys.tabJustPressed then
      ([], (tabTarget form.children (focusedOrder fields)).toList)
    else ([], [])
  | _ => ([], [])

/-! ### Deferred focus commands and processing passes -/

/-- Deferred entity commands touching the FormElementFocus marker. -/
inductive FocusCmd where
  | insert (id : Nat)
  | remove (id : Nat)
deriving DecidableEq

/-- Apply one deferred command to the world. -/
def applyFocusCmd (w : List FormField) (c : FocusCmd) : List FormField :=
  match c with
  | .insert i => w.map (fun f => if f.id == i then { f with focused := true } else f)
  | .remove i => w.map (fun f => if f.id == i then { f with focused := false } else f)

/-- Apply a queue of deferred commands in order. -/
def applyFocusCmds (cmds : List FocusCmd) (w : List FormField) : List FormField :=
  cmds.foldl applyFocusCmd w

/-- The focus_interaction system of lib.rs for one pointer press: a
press on a text-input field queues a focus insertion for it and sets it
active immediately; a press on any other entity queues focus removals
for every field and clears every active flag. -/
def focus_interaction (press : Option Nat) (w : List FormField) :
    List FormField × List FocusCmd :=
  match press with
  | none => (w, [])
  | some e =>
    if w.any (fun f => f.id == e) then
      (w.map (fun f => if f.id == e then { f with active := true } else f),
       [.insert e])
    else
      (w.map (fun f => { f with active := false }),
       w.map (fun f => FocusCmd.remove f.id))

/-- The body of the focus_added system of lib.rs for one entity whose
FormElementFocus was newly added: every other field gets a deferred
focus removal and its active flag cleared, the entity itself is set
active. -/
def focus_added_one (e : Nat) (w : List FormField) :
    List FormField × List FocusCmd :=
  (w.map (fun f => if f.id == e then { f with active := true }
                   else { f with active := false }),
   (w.filter (fun f => f.id != e)).map (fun f => FocusCmd.remove f.id))

/-- The focus_added system of lib.rs over the list of entities whose
FormElementFocus marker was newly added this pass. -/
def focus_added (added : List Nat) (w : List FormField) :
    List FormField × List FocusCmd :=
  added.foldl
    (fun acc e =>
      let r := focus_added_one e acc.1
      (r.1, acc.2 ++ r.2))
    (w, [])

/-- Run focus_added and flush its deferred commands. -/
def focusAddedPass (added : List Nat) (w : List FormField) : List FormField :=
  let r := focus_added added w
  applyFocusCmds r.2 r.1

/-- The insertion commands of a queue that target a field not focused
in the given world: exactly those raise an Added edge after the
flush. -/
def addedOf (cmds : List FocusCmd) (w : List FormField) : List Nat :=
  (cmds.filterMap (fun c => match c with
    | .insert i => some i
    | .remove _ => none)).filter
      (fun i => !(w.any (fun f => f.id == i && f.focused)))

/-- A full pointer pass: focus_interaction runs, the engine flushes its
commands at the sync point induced by the focus_added ordering
constraint, and focus_added reconciles the newly added markers before
the end of the pass. -/
def pointerPass (press : Option Nat) (w : List FormField) : List FormField :=
  focusAddedPass (addedOf (focus_interaction press w).2 w)
    (applyFocusCmds (focus_interaction press w).2 (focus_interaction press w).1)

/-- The end-of-pass world of the pass in which Tab is pressed: the
form_keyboard system has no ordering edge to focus_added, so its
FormElementFocus insertion is flushed at the end of the schedule only,
after focus_added has already run. -/
def tabPassLate (forms : List FormEnt) (keys : FormKeys)
    (w : List FormField) : List FormField :=
  let inserts := (form_keyboard forms keys w).2
  applyFocusCmds (inserts.map .insert) w

/-- A tab transfer across two passes: the insertion lands at the end of
the pass in which Tab was pressed, and the focus_added run of the
following pass reconciles the marker. -/
def tabFullStep (forms : List FormEnt) (keys : FormKeys)
    (w : List FormField) : List FormField :=
  let inserts := (form_keyboard forms keys w).2
  let w1 := applyFocusCmds (inserts.map .insert) w
  focusAddedPass (addedOf (inserts.map .insert) w) w1

/-- Well-formed world: entity ids are distinct. -/
def wfIds (w : List FormField) : Prop :=
  (w.map (·.id)).Nodup

instance (w : List FormField) : Decidable (wfIds w) := by
  unfold wfIds
  infer_instance

/-- Keyboard snapshot with only Tab just pressed. -/
def tabKeys : FormKeys := ⟨false, false, false, true⟩

/-- Three successive cross-pass tab transfers visit the fields with
ids 12, 11 and 10, which carry the declared orders 1, 2 and 0. -/
def tabCycle3 (f : FormEnt) (w : List FormField) : Prop :=
  (focusedFields (tabFullStep [f] tabKeys w)).map (·.id) = [12] ∧
  (focusedFields (tabFullStep [f] tabKeys
      (tabFullStep [f] tabKeys w))).map (·.id) = [11] ∧
  (focusedFields (tabFullStep [f] tabKeys (tabFullStep [f] tabKeys
      (tabFullStep [f] tabKeys w)))).map (·.id) = [10]

/-- Modelled from the spec: the character-level reference editor the
claims compare against — arrows move the cursor by one character
clamped to the character count, backspace removes the character before
the cursor, delete removes the character at the cursor, space and
character input insert at the character index of the cursor and advance
it by one.  This definition follows the words of the specification, not
the source, and exists only for comparison. -/
def specCharEdit (k : Key) (s : TextState) : TextState :=
  match k with
  | .arrowLeft => ⟨s.value, s.cursor - 1⟩
  | .arrowRight => ⟨s.value, min (s.cursor + 1) s.value.length⟩
  | .backspace =>
    if 0 < s.cursor then
      ⟨s.value.take (s.cursor - 1) ++ s.value.drop s.cursor, s.cursor - 1⟩
    else s
  | .delete =>
    if s.cursor < s.value.length then
      ⟨s.value.take s.cursor ++ s.value.drop (s.cursor + 1), s.cursor⟩
    else s
  | .space => ⟨s.value.take s.cursor ++ [' '] ++ s.value.drop s.cursor, s.cursor + 1⟩
  | .character cs => ⟨s.value.take s.cursor ++ cs ++ s.value.drop s.cursor, s.cursor + 1⟩
  | _ => s

/-! ### Theorems -/

lemma update_value_of_id (s : TextState) : update_value ⟨false, false⟩ s = s := by
  cases s; rfl

lemma update_value_inv (flags : EditFlags) (s : TextState)
    (h : flags.cursorChanged = true ∨ flags.valueChanged = true) :
    cursorInv (update_value flags s) := by
  rcases flags with ⟨vc, cc⟩
  cases vc <;> cases cc <;>
    simp_all [update_value, cursorInv, Nat.min_le_right]

lemma keyboard_flags_cases (settings : TextInputSettings) (k : Key)
    (s : TextState) (o : KeyOutcome) (h : keyboard settings k s = .ok o) :
    o.flags.cursorChanged = true ∨ (o.flags = ⟨false, false⟩ ∧ o.state = s) := by
  cases k <;> simp only [keyboard] at h <;>
    (try split at h) <;>
    (try (injection h with h2; subst h2)) <;> simp_all

lemma applyOp_inv (settings : TextInputSettings) (op : EditOp)
    (s s' : TextState) (h : cursorInv s)
    (he : applyOp settings op s = .ok s') : cursorInv s' := by
  cases op with
  | writeValue v =>
    simp only [applyOp] at he
    injection he with he
    subst he
    exact update_value_inv _ _ (Or.inr rfl)
  | key k =>
    simp only [applyOp, framePass] at he
    cases hk : keyboard settings k s with
    | error e => rw [hk] at he; cases he
    | ok o =>
      rw [hk] at he
      injection he with he
      subst he
      rcases keyboard_flags_cases settings k s o hk with hc | ⟨hf, hs⟩
      · exact update_value_inv _ _ (Or.inl hc)
      · rw [hf, hs, update_value_of_id]; exact h

/-- C2: over every sequence of keyboard editing operations and external
value writes, each followed by the update_value clamp of the same
frame, the invariant 0 le cursor le character count of the value is
preserved: it holds after every completed operation. -/
theorem cursor_offset_invariant (settings : TextInputSettings)
    (ops : List EditOp) (s s' : TextState) (h : cursorInv s)
    (he : applyOps settings ops s = .ok s') : cursorInv s' := by
  induction ops generalizing s with
  | nil => simp only [applyOps] at he; injection he with he; subst he; exact h
  | cons op ops ih =>
    simp only [applyOps] at he
    cases ho : applyOp settings op s with
    | error e => rw [ho] at he; cases he
    | ok s1 =>
      rw [ho] at he
      exact ih s1 (applyOp_inv settings op s s1 h ho) he

/-- Witness for C2 at a concrete run: insert two characters, move left,
paste nothing external, delete, and an external value write. -/
theorem cursor_offset_invariant_witness :
    cursorInv ⟨[], 0⟩ ∧ cursorInv ⟨['x'], 1⟩ :=
  ⟨by decide,
   cursor_offset_invariant ⟨false, none⟩
     [.key (.character ['a']), .key (.character ['b']), .key .arrowLeft,
      .key .backspace, .writeValue ['x']]
     ⟨[], 0⟩ ⟨['x'], 1⟩ (by decide) rfl⟩

/-- C7: the keyboard system uses raw byte offsets where the claim
requires character indices.  At value e-acute with the cursor after it,
Space inserts at byte index 1 inside the two-byte character and the
Rust String insert panics, while the reference editor appends a space;
ArrowRight moves the cursor to 2 although the character count is 1,
while the reference editor clamps at 1.  The all-ASCII scenario of the
claim does hold: from value abc with cursor 3, Backspace gives ab with
cursor 2, ArrowLeft gives cursor 1, Delete gives a with cursor 1. -/
theorem keyboard_byte_offset_divergence :
    keyboard ⟨false, none⟩ .space ⟨['é'], 1⟩ = .error () ∧
    specCharEdit .space ⟨['é'], 1⟩ = ⟨['é', ' '], 2⟩ ∧
    keyboard ⟨false, none⟩ .arrowRight ⟨['é'], 1⟩ =
      .ok ⟨⟨['é'], 2⟩, ⟨false, true⟩, none⟩ ∧
    specCharEdit .arrowRight ⟨['é'], 1⟩ = ⟨['é'], 1⟩ ∧
    framePass ⟨false, none⟩ .backspace ⟨['a', 'b', 'c'], 3⟩ =
      .ok (⟨['a', 'b'], 2⟩, none) ∧
    framePass ⟨false, none⟩ .arrowLeft ⟨['a', 'b'], 2⟩ =
      .ok (⟨['a', 'b'], 1⟩, none) ∧
    framePass ⟨false, none⟩ .delete ⟨['a', 'b'], 1⟩ =
      .ok (⟨['a'], 1⟩, none) :=
  ⟨rfl, rfl, rfl, rfl, rfl, rfl, rfl⟩

/-- C8: Enter with retain-on-submit set submits a copy of the current
value and leaves value and cursor unchanged; with retain-on-submit
unset it submits the previous value, clears the value and resets the
cursor to 0.  Stated through the full frame including the update_value
phase. -/
theorem enter_submit_semantics (v : List Char) (c : Nat) (m : Option Char) :
    framePass ⟨true, m⟩ .enter ⟨v, c⟩ = .ok (⟨v, c⟩, some v) ∧
    framePass ⟨false, m⟩ .enter ⟨v, c⟩ = .ok (⟨[], 0⟩, some v) :=
  ⟨rfl, rfl⟩

/-- C9: paste strips newline and carriage-return characters and
advances the cursor by the character count of the stripped text, and
the ASCII mid-field scenario of the claim holds; but the insertion uses
the cursor as a raw byte offset, so pasting into a field whose prefix
holds a two-byte character panics in Rust String insert_str instead of
inserting at the character position. -/
theorem paste_byte_offset_divergence :
    clipboard ['f', 'o', 'o', '\n', 'b', 'a', 'r'] ⟨['x', 'y'], 1⟩ =
      .ok ⟨['x', 'f', 'o', 'o', 'b', 'a', 'r', 'y'], 7⟩ ∧
    clipboard ['a'] ⟨['é', 'x'], 1⟩ = .error () :=
  ⟨rfl, rfl⟩

/-- C10: with_value sets the cursor to the BYTE length of the provided
string, not its character count: for the one-character value e-acute
the cursor becomes 2 while the character count is 1, violating the
cursor invariant the claim asserts of the freshly constructed
bundle. -/
theorem with_value_cursor_bytes :
    with_value ['é'] = ⟨['é'], 2⟩ ∧ (['é'] : List Char).length = 1 ∧
    ¬ cursorInv (with_value ['é']) :=
  ⟨rfl, rfl, by decide⟩

/-- C6 counterexample: with a single form present and the Escape key
just released but not just pressed, form_keyboard emits nothing — the
code reacts to an Escape press, not a release; and when Escape is just
pressed the emitted Cancel event is parameterless, carrying no form
handle. -/
theorem escape_release_no_cancel :
    form_keyboard [⟨100, [(0, some 0), (1, some 1)], none⟩]
      ⟨false, false, true, false⟩
      [⟨0, true, true, some 0⟩, ⟨1, false, false, some 1⟩] = ([], []) ∧
    form_keyboard [⟨100, [(0, some 0), (1, some 1)], none⟩]
      ⟨false, true, false, false⟩
      [⟨0, true, true, some 0⟩, ⟨1, false, false, some 1⟩] = ([.cancel], []) :=
  ⟨rfl, rfl⟩

/-- C4: on a value change, an empty value on a non-optional field marks
the field invalid with cause Required of its own handle and otherwise
marks it valid; a newly raised invalid marker appends the cause to the
parent form error list, creating it (and dropping FormValid) when it is
the first error, and a newly raised valid marker removes every error
carrying this field handle, replacing FormInvalid by FormValid when the
list empties. -/
theorem validate_reconciliation (f : FieldVal) (v : List Char) (form : FormAgg) :
    ((v = [] ∧ f.optional = false) →
       (valueChangeStep f v form).1.invalidM = some (.required f.id) ∧
       (valueChangeStep f v form).1.validM = false) ∧
    (¬(v = [] ∧ f.optional = false) →
       (valueChangeStep f v form).1.validM = true ∧
       (valueChangeStep f v form).1.invalidM = none) ∧
    ((v = [] ∧ f.optional = false ∧ f.invalidM = none) →
       (∀ l, form.formInvalid = some l →
          (valueChangeStep f v form).2.formInvalid =
            some (l ++ [.required f.id])) ∧
       (form.formInvalid = none →
          (valueChangeStep f v form).2.formInvalid = some [.required f.id] ∧
          (valueChangeStep f v form).2.formValid = false)) ∧
    ((¬(v = [] ∧ f.optional = false) ∧ f.validM = false) →
       ∀ l, form.formInvalid = some l →
         ((l.filter (fun err => errorEntity err != f.id) = [] →
             (valueChangeStep f v form).2.formInvalid = none ∧
             (valueChangeStep f v form).2.formValid = true) ∧
          (l.filter (fun err => errorEntity err != f.id) ≠ [] →
             (valueChangeStep f v form).2.formInvalid =
               some (l.filter (fun err => errorEntity err != f.id))))) := by
  have hif : (v.isEmpty && !f.optional) = true ↔ (v = [] ∧ f.optional = false) := by
    simp [List.isEmpty_iff]
  have hcFalse : ¬(v = [] ∧ f.optional = false) →
      (v.isEmpty && !f.optional) = false := by
    intro h
    cases hb : (v.isEmpty && !f.optional) with
    | false => rfl
    | true => exact absurd (hif.mp hb) h
  refine ⟨?_, ?_, ?_, ?_⟩
  · rintro ⟨hv, ho⟩
    subst hv
    simp [valueChangeStep, validate, ho]
  · intro h
    simp [valueChangeStep, validate, hcFalse h]
  · rintro ⟨hv, ho, hinv⟩
    subst hv
    constructor
    · intro l hl
      simp [valueChangeStep, validate, ho, hinv, form_element_invalid, hl]
    · intro hl
      simp [valueChangeStep, validate, ho, hinv, form_element_invalid, hl]
  · rintro ⟨h, hvalid⟩
    intro l hl
    constructor
    · intro hfil
      simp [valueChangeStep, validate, hcFalse h, hvalid, form_element_valid,
        hl, hfil]
    · intro hfil
      simp [valueChangeStep, validate, hcFalse h, hvalid, form_element_valid,
        hl, List.isEmpty_iff, hfil]

/-- Witness for C4: an empty non-optional field with no prior invalid
marker under a form with no error list creates the singleton error list
and drops FormValid. -/
theorem validate_reconciliation_witness :
    (valueChangeStep ⟨5, ['q'], false, false, none⟩ [] ⟨100, none, false⟩).2.formInvalid =
        some [.required 5] ∧
    (valueChangeStep ⟨5, ['q'], false, false, none⟩ [] ⟨100, none, false⟩).2.formValid =
        false :=
  ((validate_reconciliation ⟨5, ['q'], false, false, none⟩ [] ⟨100, none, false⟩).2.2.1
      ⟨rfl, rfl, rfl⟩).2 rfl

lemma form_element_invalid_formInv (form : FormAgg) (c : FormValidationError)
    (h : formInv form) : formInv (form_element_invalid form c) := by
  rcases form with ⟨i, fi, fv⟩
  cases fi with
  | none =>
    constructor
    · intro l hl
      simp only [form_element_invalid] at hl
      injection hl with hl
      subst hl
      simp
    · simp [form_element_invalid]
  | some l =>
    constructor
    · intro l2 hl2
      simp only [form_element_invalid] at hl2
      injection hl2 with hl2
      subst hl2
      simp
    · rintro ⟨_, hfv⟩
      exact h.2 ⟨by simp, hfv⟩

lemma form_element_valid_formInv (form : FormAgg) (e : Nat)
    (h : formInv form) : formInv (form_element_valid form e) := by
  rcases form with ⟨i, fi, fv⟩
  cases fi with
  | none => simpa [form_element_valid] using h
  | some l =>
    simp only [form_element_valid]
    by_cases hk : (l.filter (fun err => errorEntity err != e)).isEmpty = true
    · simp only [hk, if_true]
      constructor
      · intro l2 hl2
        cases hl2
      · rintro ⟨hne, _⟩
        exact hne rfl
    · simp only [Bool.not_eq_true] at hk
      simp only [hk, Bool.false_eq_true, if_false]
      constructor
      · intro l2 hl2
        injection hl2 with hl2
        subst hl2
        simpa [List.isEmpty_iff] using hk
      · rintro ⟨_, hfv⟩
        exact h.2 ⟨by simp, hfv⟩

lemma valueChangeStep_formInv (f : FieldVal) (v : List Char) (form : FormAgg)
    (h : formInv form) : formInv (valueChangeStep f v form).2 := by
  simp only [valueChangeStep]
  have h1 : formInv (if (validate { f with value := v }).2.1 then
      form_element_invalid form (.required f.id) else form) := by
    split
    · exact form_element_invalid_formInv _ _ h
    · exact h
  split
  · exact form_element_valid_formInv _ _ h1
  · exact h1

lemma formStep_formInv (p : List FieldVal × FormAgg) (op : Nat × List Char)
    (h : formInv p.2) : formInv (formStep p op).2 := by
  simp only [formStep]
  cases hg : p.1.get? op.1 with
  | none => exact h
  | some f => exact valueChangeStep_formInv _ _ _ h

/-- C5: over every sequence of child value changes processed by the
validation pipeline, a present FormInvalid component carries a
non-empty error list and FormInvalid and FormValid are never present
together; and a form whose only child is valid but was never explicitly
marked valid carries neither marker, so validity is an assertion rather
than a derived absence of invalid. -/
theorem form_aggregate_invariant :
    (∀ (fields : List FieldVal) (form : FormAgg) (ops : List (Nat × List Char)),
       formInv form → formInv (formRun (fields, form) ops).2) ∧
    ((formRun ([⟨5, ['q'], false, true, none⟩], ⟨100, none, false⟩) []).2 =
       ⟨100, none, false⟩ ∧
     (⟨100, none, false⟩ : FormAgg).formValid = false ∧
     (⟨100, none, false⟩ : FormAgg).formInvalid = none) := by
  constructor
  · intro fields form ops h
    suffices H : ∀ (ops : List (Nat × List Char)) (p : List FieldVal × FormAgg),
        formInv p.2 → formInv (formRun p ops).2 from H ops (fields, form) h
    intro ops
    induction ops with
    | nil => intro p hp; exact hp
    | cons op ops ih =>
      intro p hp
      exact ih (formStep p op) (formStep_formInv p op hp)
  · exact ⟨rfl, rfl, rfl⟩

/-- Witness for C5: running an emptying and a refilling value change on
one non-optional child preserves the aggregate invariant. -/
theorem form_aggregate_invariant_witness :
    formInv (⟨100, none, false⟩ : FormAgg) ∧
    formInv (formRun ([⟨5, [], false, false, none⟩], ⟨100, none, false⟩)
      [(0, []), (0, ['x'])]).2 :=
  ⟨by simp [formInv], form_aggregate_invariant.1 _ _ _ (by simp [formInv])⟩

/-- C6 amended: with exactly one form present, an Enter release emits
Submit carrying the form handle exactly when no FormInvalid marker is
present, and when Enter was not just released an Escape PRESS emits the
parameterless Cancel event unconditionally. -/
theorem form_keyboard_amended (form : FormEnt) (keys : FormKeys)
    (fields : List FormField) :
    (keys.enterJustReleased = true →
       (FormEvent.submit form.id ∈ (form_keyboard [form] keys fields).1 ↔
          form.formInvalid = none)) ∧
    (keys.enterJustReleased = false → keys.escapeJustPressed = true →
       (form_keyboard [form] keys fields).1 = [.cancel]) := by
  constructor
  · intro h
    by_cases hi : form.formInvalid = none <;> simp [form_keyboard, h, hi]
  · intro h1 h2
    simp [form_keyboard, h1, h2]

/-- Witness for C6 at a concrete form and keyboard state: Escape just
pressed with Enter not just released emits exactly the parameterless
Cancel. -/
theorem form_keyboard_amended_witness :
    (form_keyboard [⟨100, [(0, some 0)], none⟩] ⟨false, true, false, false⟩
      []).1 = [.cancel] :=
  (form_keyboard_amended ⟨100, [(0, some 0)], none⟩ ⟨false, true, false, false⟩
    []).2 rfl rfl

lemma minByKeyFirst_eq_none {l : List (Nat × Nat)} :
    minByKeyFirst l = none ↔ l = [] := by
  cases l with
  | nil => simp [minByKeyFirst]
  | cons x xs =>
    simp only [minByKeyFirst]
    constructor
    · intro h
      split at h
      · cases h
      · split at h <;> cases h
    · intro h
      exact (List.cons_ne_nil x xs h).elim

lemma minByKeyFirst_mem {l : List (Nat × Nat)} {p : Nat × Nat}
    (h : minByKeyFirst l = some p) : p ∈ l := by
  induction l with
  | nil => cases h
  | cons x xs ih =>
    simp only [minByKeyFirst] at h
    split at h
    · injection h with h
      subst h
      exact List.mem_cons_self _ _
    · rename_i y heq
      split at h <;> (injection h with h; subst h)
      · exact List.mem_cons_of_mem _ (ih heq)
      · exact List.mem_cons_self _ _

lemma minByKeyFirst_min {l : List (Nat × Nat)} {p : Nat × Nat}
    (h : minByKeyFirst l = some p) : ∀ q ∈ l, p.2 ≤ q.2 := by
  induction l generalizing p with
  | nil => cases h
  | cons x xs ih =>
    intro q hq
    simp only [minByKeyFirst] at h
    split at h
    · rename_i heq
      injection h with h
      subst h
      have hxs : xs = [] := minByKeyFirst_eq_none.mp heq
      subst hxs
      simp only [List.mem_cons, List.not_mem_nil, or_false] at hq
      subst hq
      exact Nat.le_refl _
    · rename_i y heq
      rcases List.mem_cons.mp hq with hq | hq
      · subst hq
        split at h <;> (injection h with h; subst h)
        · rename_i hlt
          exact Nat.le_of_lt hlt
        · exact Nat.le_refl _
      · split at h <;> (injection h with h; subst h)
        · exact ih heq q hq
        · rename_i hnlt
          exact Nat.le_trans (Nat.le_of_not_lt hnlt) (ih heq q hq)

/-- C3: the tab-navigation selection of form_keyboard picks only
children carrying an explicit order; when some child has a declared
order strictly above the current one it picks one with the least such
order, and otherwise it wraps to a child with the globally least
declared order.  Consequently, over three children declared with orders
0, 2 and 1, in every one of the six creation orders, repeated Tab
starting from the order-0 field visits the fields in cyclic ascending
order of declared order. -/
theorem tab_navigation_correct :
    (∀ (children : List (Nat × Option Nat)) (cur : Nat),
      (∀ e, tabTarget children cur = some e →
         ∃ o, (e, o) ∈ orderedChildren children) ∧
      ((∃ p, p ∈ orderedChildren children ∧ cur < p.2) →
         ∃ e o, tabTarget children cur = some e ∧
           (e, o) ∈ orderedChildren children ∧ cur < o ∧
           ∀ q ∈ orderedChildren children, cur < q.2 → o ≤ q.2) ∧
      ((orderedChildren children ≠ [] ∧
          ∀ q ∈ orderedChildren children, ¬ cur < q.2) →
         ∃ e o, tabTarget children cur = some e ∧
           (e, o) ∈ orderedChildren children ∧
           ∀ q ∈ orderedChildren children, o ≤ q.2)) ∧
    (tabCycle3 ⟨100, [(10, some 0), (11, some 2), (12, some 1)], none⟩
       [⟨10, true, true, some 0⟩, ⟨11, false, false, some 2⟩, ⟨12, false, false, some 1⟩] ∧
     tabCycle3 ⟨100, [(10, some 0), (12, some 1), (11, some 2)], none⟩
       [⟨10, true, true, some 0⟩, ⟨12, false, false, some 1⟩, ⟨11, false, false, some 2⟩] ∧
     tabCycle3 ⟨100, [(11, some 2), (10, some 0), (12, some 1)], none⟩
       [⟨11, false, false, some 2⟩, ⟨10, true, true, some 0⟩, ⟨12, false, false, some 1⟩] ∧
     tabCycle3 ⟨100, [(11, some 2), (12, some 1), (10, some 0)], none⟩
       [⟨11, false, false, some 2⟩, ⟨12, false, false, some 1⟩, ⟨10, true, true, some 0⟩] ∧
     tabCycle3 ⟨100, [(12, some 1), (10, some 0), (11, some 2)], none⟩
       [⟨12, false, false, some 1⟩, ⟨10, true, true, some 0⟩, ⟨11, false, false, some 2⟩] ∧
     tabCycle3 ⟨100, [(12, some 1), (11, some 2), (10, some 0)], none⟩
       [⟨12, false, false, some 1⟩, ⟨11, false, false, some 2⟩, ⟨10, true, true, some 0⟩]) := by
  constructor
  · intro children cur
    refine ⟨?_, ?_, ?_⟩
    · intro e he
      simp only [tabTarget] at he
      cases hm : minByKeyFirst ((orderedChildren children).filter
          (fun q => cur < q.2)) with
      | some p =>
        rw [hm] at he
        injection he with he
        subst he
        have := minByKeyFirst_mem hm
        rw [List.mem_filter] at this
        exact ⟨p.2, this.1⟩
      | none =>
        rw [hm] at he
        cases hm2 : minByKeyFirst (orderedChildren children) with
        | none => rw [hm2] at he; cases he
        | some p =>
          rw [hm2] at he
          injection he with he
          subst he
          exact ⟨p.2, minByKeyFirst_mem hm2⟩
    · rintro ⟨p, hp, hcur⟩
      have hmem : p ∈ (orderedChildren children).filter (fun q => cur < q.2) :=
        List.mem_filter.mpr ⟨hp, by simpa using hcur⟩
      cases hm : minByKeyFirst ((orderedChildren children).filter
          (fun q => cur < q.2)) with
      | none =>
        rw [minByKeyFirst_eq_none.mp hm] at hmem
        exact absurd hmem (List.not_mem_nil p)
      | some q =>
        have hqmem := minByKeyFirst_mem hm
        rw [List.mem_filter] at hqmem
        refine ⟨q.1, q.2, ?_, hqmem.1, by simpa using hqmem.2, ?_⟩
        · simp only [tabTarget, hm]
        · intro r hr hcr
          exact minByKeyFirst_min hm r
            (List.mem_filter.mpr ⟨hr, by simpa using hcr⟩)
    · rintro ⟨hne, hall⟩
      have hfil : (orderedChildren children).filter (fun q => cur < q.2) = [] := by
        rw [List.filter_eq_nil_iff]
        intro q hq
        simpa using hall q hq
      cases hm2 : minByKeyFirst (orderedChildren children) with
      | none => exact absurd (minByKeyFirst_eq_none.mp hm2) hne
      | some q =>
        refine ⟨q.1, q.2, ?_, minByKeyFirst_mem hm2, minByKeyFirst_min hm2⟩
        simp [tabTarget, hfil, minByKeyFirst, hm2]
  · exact ⟨⟨rfl, rfl, rfl⟩, ⟨rfl, rfl, rfl⟩, ⟨rfl, rfl, rfl⟩,
      ⟨rfl, rfl, rfl⟩, ⟨rfl, rfl, rfl⟩, ⟨rfl, rfl, rfl⟩⟩

/-- Witness for C3: applying the selection theorem to one concrete
child list with an order above the current one. -/
theorem tab_navigation_correct_witness :
    ∃ e o, tabTarget [(5, some 3)] 0 = some e ∧
      (e, o) ∈ orderedChildren [(5, some 3)] ∧ 0 < o ∧
      ∀ q ∈ orderedChildren [(5, some 3)], 0 < q.2 → o ≤ q.2 :=
  (tab_navigation_correct.1 [(5, some 3)] 0).2.1 ⟨(5, 3), by decide, by decide⟩

lemma applyFocusCmds_removes (rs : List Nat) (w : List FormField) :
    applyFocusCmds (rs.map FocusCmd.remove) w =
      w.map (fun f => if rs.contains f.id then { f with focused := false } else f) := by
  induction rs generalizing w with
  | nil =>
    simp only [List.map_nil, applyFocusCmds, List.foldl_nil, List.contains_nil,
      Bool.false_eq_true, if_false]
    exact (List.map_id w).symm
  | cons r rs ih =>
    have hstep : applyFocusCmds ((r :: rs).map FocusCmd.remove) w =
        applyFocusCmds (rs.map FocusCmd.remove) (applyFocusCmd w (.remove r)) := rfl
    rw [hstep, ih]
    simp only [applyFocusCmd, List.map_map]
    apply List.map_congr_left
    intro f _
    rcases f with ⟨fid, ffoc, fact, ford⟩
    by_cases ht : fid = r
    · subst ht
      simp only [Function.comp, beq_self_eq_true, if_true, List.contains_cons,
        Bool.true_or]
      split <;> rfl
    · have hb : (fid == r) = false := by simpa using ht
      simp only [Function.comp, hb, Bool.false_eq_true, if_false,
        List.contains_cons, Bool.false_or]

lemma focusAddedPass_single (e : Nat) (w : List FormField) :
    focusAddedPass [e] w = w.map (fun f =>
      if f.id == e then { f with active := true }
      else { f with focused := false, active := false }) := by
  simp only [focusAddedPass, focus_added, List.foldl_cons, List.foldl_nil,
    focus_added_one, List.nil_append]
  have hrw : (w.filter (fun f => f.id != e)).map (fun f => FocusCmd.remove f.id) =
      ((w.filter (fun f => f.id != e)).map (·.id)).map FocusCmd.remove := by
    rw [List.map_map]
    exact List.map_congr_left fun f _ => rfl
  rw [hrw, applyFocusCmds_removes, List.map_map]
  apply List.map_congr_left
  intro f hf
  rcases f with ⟨fid, ffoc, fact, ford⟩
  by_cases ht : fid = e
  · subst ht
    have hnc : ((w.filter (fun f => f.id != fid)).map (·.id)).contains fid = false := by
      rw [List.contains_eq_any_beq, Bool.eq_false_iff]
      intro hx
      simp only [List.any_eq_true] at hx
      rcases hx with ⟨i, hi, hbeq⟩
      rcases List.mem_map.mp hi with ⟨g, hg, hgid⟩
      rcases List.mem_filter.mp hg with ⟨_, hgne⟩
      rw [← hgid] at hbeq
      have hfg : fid = g.id := by simpa using hbeq
      exact absurd hfg.symm (by simpa using hgne)
    simp only [Function.comp, beq_self_eq_true, if_true]
    simp only [hnc, Bool.false_eq_true, if_false]
  · have hb : (fid == e) = false := by simpa using ht
    have hcc : ((w.filter (fun f => f.id != e)).map (·.id)).contains fid = true := by
      rw [List.contains_eq_any_beq]
      simp only [List.any_eq_true]
      refine ⟨fid, ?_, by simp⟩
      exact List.mem_map.mpr ⟨⟨fid, ffoc, fact, ford⟩,
        List.mem_filter.mpr ⟨hf, by simpa using ht⟩, rfl⟩
    simp only [Function.comp, hb, Bool.false_eq_true, if_false, hcc, if_true]

lemma countFocused_eq_countP (w : List FormField) :
    countFocused w = w.countP (·.focused) := by
  simp [countFocused, focusedFields, List.countP_eq_length_filter]

lemma countP_ids_le_one (e : Nat) (w : List FormField) (hw : wfIds w) :
    w.countP (fun f => f.id == e) ≤ 1 := by
  have h2 : w.countP (fun f => f.id == e) = (w.map (·.id)).count e := by
    rw [List.count_eq_countP, List.countP_map]
    rfl
  rw [h2]
  exact List.nodup_iff_count_le_one.mp hw e

lemma focusAddedPass_single_le (e : Nat) (w : List FormField)
    (hw : wfIds w) : countFocused (focusAddedPass [e] w) ≤ 1 := by
  rw [focusAddedPass_single, countFocused_eq_countP, List.countP_map]
  refine Nat.le_trans (List.countP_mono_left (q := fun f => f.id == e) ?_)
    (countP_ids_le_one e w hw)
  intro f _ hpf
  by_cases ht : f.id = e
  · simpa using ht
  · have hb : (f.id == e) = false := by simpa using ht
    simp only [Function.comp, hb, Bool.false_eq_true, if_false] at hpf

lemma ids_applyFocusCmd (w : List FormField) (c : FocusCmd) :
    (applyFocusCmd w c).map (·.id) = w.map (·.id) := by
  cases c <;>
    (simp only [applyFocusCmd, List.map_map]
     apply List.map_congr_left
     intro f _
     simp only [Function.comp]
     split <;> rfl)

lemma ids_applyFocusCmds (cmds : List FocusCmd) (w : List FormField) :
    (applyFocusCmds cmds w).map (·.id) = w.map (·.id) := by
  induction cmds generalizing w with
  | nil => rfl
  | cons c cmds ih =>
    have hstep : applyFocusCmds (c :: cmds) w =
        applyFocusCmds cmds (applyFocusCmd w c) := rfl
    rw [hstep, ih, ids_applyFocusCmd]

lemma ids_map_update (w : List FormField) (g : FormField → FormField)
    (hg : ∀ f, (g f).id = f.id) :
    (w.map g).map (·.id) = w.map (·.id) := by
  simp only [List.map_map]
  apply List.map_congr_left
  intro f _
  exact hg f

lemma wfIds_applyFocusCmds (cmds : List FocusCmd) (w : List FormField)
    (h : wfIds w) : wfIds (applyFocusCmds cmds w) := by
  unfold wfIds at h ⊢
  rw [ids_applyFocusCmds]
  exact h

/-- C1 amended: pointer-press focus transfers are atomic within one
pass — from a well-formed world with at most one focused field, the
end-of-pass world again has at most one focused field, for a press on a
field, a press outside every field, and no press alike; a tab transfer
in contrast only inserts the new marker, and exclusivity is restored
when the focus_added system next processes the pending insertion: after
that run at most one field is focused, whatever the world it runs
on. -/
theorem focus_exclusivity_amended :
    (∀ (press : Option Nat) (w : List FormField),
       wfIds w → countFocused w ≤ 1 →
       countFocused (pointerPass press w) ≤ 1) ∧
    (∀ (w : List FormField) (e : Nat),
       wfIds w → countFocused (focusAddedPass [e] w) ≤ 1) := by
  constructor
  · intro press w hw hc
    cases press with
    | none =>
      have hpp : pointerPass none w = w := rfl
      rw [hpp]
      exact hc
    | some e =>
      by_cases hmem : w.any (fun f => f.id == e) = true
      · have hfi : focus_interaction (some e) w =
            (w.map (fun f => if f.id == e then { f with active := true } else f),
             [FocusCmd.insert e]) := by
          simp only [focus_interaction, hmem, if_true]
        have hpp : pointerPass (some e) w =
            focusAddedPass (addedOf [FocusCmd.insert e] w)
              (applyFocusCmds [FocusCmd.insert e]
                (w.map (fun f => if f.id == e then { f with active := true } else f))) := by
          simp only [pointerPass, hfi]
        rw [hpp]
        by_cases hf : w.any (fun f => f.id == e && f.focused) = true
        · have haddz : addedOf [FocusCmd.insert e] w = [] := by
            simp [addedOf, hf]
          rw [haddz]
          have hmaps : focusAddedPass []
              (applyFocusCmds [FocusCmd.insert e]
                (w.map (fun f => if f.id == e then { f with active := true } else f))) =
              w.map (fun f => if f.id == e then
                { f with focused := true, active := true } else f) := by
            have hstep : focusAddedPass []
                (applyFocusCmds [FocusCmd.insert e]
                  (w.map (fun f => if f.id == e then { f with active := true } else f))) =
                (w.map (fun f => if f.id == e then { f with active := true } else f)).map
                  (fun f => if f.id == e then { f with focused := true } else f) := rfl
            rw [hstep, List.map_map]
            apply List.map_congr_left
            intro f _
            by_cases ht : f.id = e
            · have hb : (f.id == e) = true := by simpa using ht
              simp [Function.comp, hb]
            · have hb : (f.id == e) = false := by simpa using ht
              simp [Function.comp, hb]
          rw [hmaps, countFocused_eq_countP, List.countP_map]
          rw [countFocused_eq_countP] at hc
          rcases List.any_eq_true.mp hf with ⟨f0, hf0, hf0p⟩
          have hsplit : f0.id = e ∧ f0.focused = true := by simpa using hf0p
          have hf0foc := hsplit.2
          refine Nat.le_trans (Nat.le_of_eq (List.countP_congr ?_)) hc
          intro f hfw
          by_cases ht : f.id = e
          · have heq : f = f0 :=
              List.inj_on_of_nodup_map hw hfw hf0
                (ht.trans hsplit.1.symm)
            subst heq
            have hb : (f.id == e) = true := by simpa using ht
            simp [Function.comp, hb, hf0foc]
          · have hb : (f.id == e) = false := by simpa using ht
            simp [Function.comp, hb]
        · have hadd : addedOf [FocusCmd.insert e] w = [e] := by
            simp only [addedOf, List.filterMap]
            simp [hf]
          rw [hadd]
          apply focusAddedPass_single_le
          apply wfIds_applyFocusCmds
          unfold wfIds
          rw [ids_map_update]
          · exact hw
          · intro f
            split <;> rfl
      · have hmem2 : w.any (fun f => f.id == e) = false :=
          Bool.eq_false_iff.mpr hmem
        have hfi : focus_interaction (some e) w =
            (w.map (fun f => { f with active := false }),
             w.map (fun f => FocusCmd.remove f.id)) := by
          simp only [focus_interaction, hmem2, Bool.false_eq_true, if_false]
        have hpp : pointerPass (some e) w =
            focusAddedPass (addedOf (w.map (fun f => FocusCmd.remove f.id)) w)
              (applyFocusCmds (w.map (fun f => FocusCmd.remove f.id))
                (w.map (fun f => { f with active := false }))) := by
          simp only [pointerPass, hfi]
        rw [hpp]
        have haddz : addedOf (w.map (fun f => FocusCmd.remove f.id)) w = [] := by
          simp only [addedOf]
          have hfm : (w.map (fun f => FocusCmd.remove f.id)).filterMap
              (fun c => match c with
                | FocusCmd.insert i => some i
                | FocusCmd.remove _ => none) = [] := by
            rw [List.filterMap_map]
            exact List.filterMap_eq_nil_iff.mpr (fun f _ => rfl)
          rw [hfm]
          rfl
        rw [haddz]
        have hcmds : w.map (fun f => FocusCmd.remove f.id) =
            (w.map (·.id)).map FocusCmd.remove := by
          rw [List.map_map]
          exact List.map_congr_left fun f _ => rfl
        rw [hcmds]
        have hpass0 : ∀ x, focusAddedPass [] x = x := fun _ => rfl
        rw [hpass0, applyFocusCmds_removes, countFocused_eq_countP,
          List.countP_map, List.countP_map]
        refine Nat.le_trans (Nat.le_of_eq ?_) (Nat.zero_le 1)
        rw [List.countP_eq_zero]
        intro f hfw
        have hex : ∃ a ∈ w, a.id = f.id := ⟨f, hfw, rfl⟩
        simp [Function.comp, hex]
  · intro w e hw
    exact focusAddedPass_single_le e w hw

/-- Witness for C1 at a concrete world: a pointer press on the
unfocused field 1 of a well-formed two-field world leaves at most one
field focused at the end of the pass. -/
theorem focus_exclusivity_amended_witness :
    wfIds [⟨0, true, true, some 0⟩, ⟨1, false, false, some 1⟩] ∧
    countFocused (pointerPass (some 1)
      [⟨0, true, true, some 0⟩, ⟨1, false, false, some 1⟩]) ≤ 1 :=
  ⟨by decide, focus_exclusivity_amended.1 (some 1)
    [⟨0, true, true, some 0⟩, ⟨1, false, false, some 1⟩]
    (by decide) (by decide)⟩

/-- C1 counterexample: a Tab press while field 0 is focused queues a
FormElementFocus insertion for field 1 from form_keyboard, which has no
ordering edge to focus_added; the command is flushed at the end of the
schedule, after focus_added already ran, so the world at the end of
that pass — the world every system of the next pass that runs before
focus_added observes — carries the focused marker on two fields. -/
theorem tab_transfer_two_focused :
    countFocused (tabPassLate [⟨100, [(0, some 0), (1, some 1)], none⟩]
      ⟨false, false, false, true⟩
      [⟨0, true, true, some 0⟩, ⟨1, false, false, some 1⟩]) = 2 :=
  rfl

end BevyUiForms
